import Mathlib

/-!
Verification of the hybrid retrieval engine of `tools/Rag_retrived.py`.

The fusion engine (`hybrid_search`, lines 268-425) consumes two ranked
candidate lists — dense (FAISS) and sparse (TF-IDF) — and fuses them under
one of three policies: "equal", "rrf", "weighted".  A candidate list is a
list of (position, score) pairs; positions are Python ints (FAISS may
return -1), scores are floats.  We embed positions as `ℤ` and scores as
`ℚ` (exact arithmetic standing in for IEEE floats; every concrete input
used below is exactly representable and far from any rounding boundary).

Python-level semantics that the embedding makes explicit:
  * dict comprehensions (`dense_map`, `dense_rank`, ...) are built
    left-to-right with later duplicate keys overwriting earlier ones
    (`dictGet?`, `rankOf`);
  * `list.sort(key=..., reverse=True)` / `sorted(..., reverse=True)` is a
    stable sort by descending key; any stable sort computes the same
    list, so we use Mathlib's stable `List.insertionSort`;
  * iteration over `set(dense_rank) | set(sparse_rank)` in the "rrf"
    branch visits each member exactly once in an implementation-defined
    (hash-table) order; the embedding takes that order as an explicit
    argument `ord`;
  * Python list indexing `keys[i]` resolves negative `i` by wrapping
    (`keys[-1]` is the last element) and raises IndexError otherwise
    (`pyGetIdx`).
-/

/-- A fused retrieval result: corpus position, fused score, and the
source tag stored in the `retrieval` field. -/
structure FusedResult where
  pos : ℤ
  score : ℚ
  tag : String
deriving DecidableEq, Repr

/-- Last-wins lookup in an association list, mirroring a Python dict
built by a comprehension such as `{i: s for i, s in zip(idx, sim)}`
(`Rag_retrived.py` lines 305-306): a later binding of the same key
overwrites an earlier one. -/
def dictGet? (m : List (ℤ × ℚ)) (i : ℤ) : Option ℚ :=
  m.foldl (fun acc p => if p.1 = i then some p.2 else acc) none

/-- Python `m.get(i, d)` on the dict modelled by `dictGet?`. -/
def dictGet (m : List (ℤ × ℚ)) (i : ℤ) (d : ℚ) : ℚ :=
  (dictGet? m i).getD d

/-- The record appended by the "equal" branch for position `i` drawn from
the candidate map `m` with source tag `tg`: score is `m.get(i, 0.0)`
(`Rag_retrived.py` lines 323-326 / 333-337 / 348-352 / 358-362, projected
to the (position, score, tag) triple). -/
def mkItem (tg : String) (m : List (ℤ × ℚ)) (i : ℤ) : FusedResult :=
  ⟨i, dictGet m i 0, tg⟩

/-- Keep the first occurrence of each position, skipping positions in
`seen`; this is the `if i in seen: continue / seen.add(i)` discipline of
the "equal" branch. -/
def firstOccByPos (seen : List ℤ) : List FusedResult → List FusedResult
  | [] => []
  | r :: rest =>
    if r.pos ∈ seen then firstOccByPos seen rest
    else r :: firstOccByPos (r.pos :: seen) rest

/-- The `seen` set after running `firstOccByPos`. -/
def firstOccSeen (seen : List ℤ) : List FusedResult → List ℤ
  | [] => seen
  | r :: rest =>
    if r.pos ∈ seen then firstOccSeen seen rest
    else firstOccSeen (r.pos :: seen) rest

/-- The first two loops of the "equal" branch (`Rag_retrived.py` lines
319-340): emit unseen candidates in list order; after each append, if
`len(results) >= top_k` return `results[:top_k]` (flag `true` signals
this early return). -/
def emitLoopA (k : ℕ) (tg : String) (m : List (ℤ × ℚ)) :
    List ℤ → List ℤ → List FusedResult → List ℤ × List FusedResult × Bool
  | [], seen, results => (seen, results, false)
  | i :: rest, seen, results =>
    if i ∈ seen then emitLoopA k tg m rest seen results
    else
      let results' := results ++ [mkItem tg m i]
      if k ≤ results'.length then (i :: seen, results'.take k, true)
      else emitLoopA k tg m rest (i :: seen) results'

/-- The two top-up loops of the "equal" branch (`Rag_retrived.py` lines
343-363): `break` once `len(results) >= top_k`, checked before each
append. -/
def emitLoopB (k : ℕ) (tg : String) (m : List (ℤ × ℚ)) :
    List ℤ → List ℤ → List FusedResult → List ℤ × List FusedResult
  | [], seen, results => (seen, results)
  | i :: rest, seen, results =>
    if k ≤ results.length then (seen, results)
    else if i ∈ seen then emitLoopB k tg m rest seen results
    else emitLoopB k tg m rest (i :: seen) (results ++ [mkItem tg m i])

/-- The "equal" policy (`Rag_retrived.py` lines 311-365).
`k_dense = math.ceil(top_k / 2)`, `k_sparse = top_k // 2`; dense prefix,
sparse prefix, dense overflow, sparse overflow; final `results[:top_k]`.
The dense (resp. sparse) candidate list plays both the role of the index
list and of the score dict. -/
def runLoops (k : ℕ) (t1 t2 t3 t4 : String) (m1 m2 m3 m4 : List (ℤ × ℚ))
    (l1 l2 l3 l4 : List ℤ) : List FusedResult :=
  let r1 := emitLoopA k t1 m1 l1 [] []
  if r1.2.2 then r1.2.1
  else
    let r2 := emitLoopA k t2 m2 l2 r1.1 r1.2.1
    if r2.2.2 then r2.2.1
    else
      let r3 := emitLoopB k t3 m3 l3 r2.1 r2.2.1
      let r4 := emitLoopB k t4 m4 l4 r3.1 r3.2
      r4.2.take k

def equalMethod (dense sparse : List (ℤ × ℚ)) (top_k : ℕ) : List FusedResult :=
  runLoops top_k "dense" "sparse" "dense" "sparse" dense sparse dense sparse
    ((dense.map Prod.fst).take ((top_k + 1) / 2))
    ((sparse.map Prod.fst).take (top_k / 2))
    ((dense.map Prod.fst).drop ((top_k + 1) / 2))
    ((sparse.map Prod.fst).drop (top_k / 2))

/-- The work sequence the "equal" branch scans: dense-primary block,
sparse-primary block, dense overflow, sparse overflow, each entry built
from its own modality's score map and tag. -/
def equalWork (dense sparse : List (ℤ × ℚ)) (top_k : ℕ) : List FusedResult :=
  ((dense.map Prod.fst).take ((top_k + 1) / 2)).map (mkItem "dense" dense)
    ++ ((sparse.map Prod.fst).take (top_k / 2)).map (mkItem "sparse" sparse)
    ++ ((dense.map Prod.fst).drop ((top_k + 1) / 2)).map (mkItem "dense" dense)
    ++ ((sparse.map Prod.fst).drop (top_k / 2)).map (mkItem "sparse" sparse)

/-- Descending-by-score comparison used by `fused.sort(key=lambda x: x[1],
reverse=True)`. -/
def descBySnd (a b : ℤ × ℚ) : Prop :=
  b.2 ≤ a.2

instance : DecidableRel descBySnd :=
  fun a b => (inferInstance : Decidable (b.2 ≤ a.2))

instance : IsTotal (ℤ × ℚ) descBySnd :=
  ⟨fun a b => le_total b.2 a.2⟩

instance : IsTrans (ℤ × ℚ) descBySnd :=
  ⟨fun _ _ _ h1 h2 => le_trans h2 h1⟩

/-- 1-based rank of `i` in a candidate index list, mirroring the dict
`{i: r for r, i in enumerate(lst, start=1)}` (`Rag_retrived.py` lines
371-372): a duplicated position keeps its last rank. -/
def rankOf (lst : List ℤ) (i : ℤ) : Option ℕ :=
  lst.enum.foldl (fun acc p => if p.2 = i then some (p.1 + 1) else acc) none

/-- Reciprocal-rank-fusion score of position `i` (`Rag_retrived.py` lines
376-382): `1/(rrf_k + rank)` summed over the lists containing `i`. -/
def rrfScore (dIdx sIdx : List ℤ) (rrf_k : ℕ) (i : ℤ) : ℚ :=
  (match rankOf dIdx i with
   | some r => 1 / ((rrf_k : ℚ) + r)
   | none => 0)
  + (match rankOf sIdx i with
     | some r => 1 / ((rrf_k : ℚ) + r)
     | none => 0)

/-- The "rrf" policy (`Rag_retrived.py` lines 370-393).  `ord` is the
iteration order of the Python set union
`set(dense_rank.keys()) | set(sparse_rank.keys())`: each member exactly
once, in an implementation-defined hash-table order.  The stable
descending sort and the `[:top_k]` cut follow. -/
def rrfMethod (dense sparse : List (ℤ × ℚ)) (top_k rrf_k : ℕ)
    (ord : List ℤ) : List FusedResult :=
  ((((ord.map (fun i =>
      (i, rrfScore (dense.map Prod.fst) (sparse.map Prod.fst) rrf_k i))).insertionSort
        descBySnd).take top_k).map (fun p => ⟨p.1, p.2, "rrf"⟩))

/-- Min-max normalization with the degenerate guard (`Rag_retrived.py`
lines 403-409): empty input is returned as is; if `max - min < 1e-12`
every normalized score is 0. -/
def minmax (x : List ℚ) : List ℚ :=
  match x with
  | [] => []
  | a :: rest =>
    let lo := (a :: rest).foldl min a
    let hi := (a :: rest).foldl max a
    if hi - lo < 1 / 10 ^ 12 then List.replicate (a :: rest).length 0
    else (a :: rest).map (fun v => (v - lo) / (hi - lo))

/-- `sorted(set(dense_map.keys()) | set(sparse_map.keys()))`
(`Rag_retrived.py` line 399): the distinct candidate positions in
ascending order. -/
def sortedUnion (dense sparse : List (ℤ × ℚ)) : List ℤ :=
  ((dense.map Prod.fst ++ sparse.map Prod.fst).dedup).insertionSort (fun a b => a ≤ b)

/-- The dense column over the union, min-max normalized: positions absent
from the dense list contribute `dense_map.get(i, 0.0) = 0.0`
(`Rag_retrived.py` lines 400, 411). -/
def weightedDNorm (dense sparse : List (ℤ × ℚ)) : List ℚ :=
  minmax ((sortedUnion dense sparse).map (fun i => dictGet dense i 0))

/-- The sparse column over the union, min-max normalized
(`Rag_retrived.py` lines 401, 412). -/
def weightedSNorm (dense sparse : List (ℤ × ℚ)) : List ℚ :=
  minmax ((sortedUnion dense sparse).map (fun i => dictGet sparse i 0))

/-- `alpha * d_norm + (1 - alpha) * s_norm`, elementwise
(`Rag_retrived.py` line 414). -/
def weightedFusedScores (dense sparse : List (ℤ × ℚ)) (alpha : ℚ) : List ℚ :=
  List.zipWith (fun dn sn => alpha * dn + (1 - alpha) * sn)
    (weightedDNorm dense sparse) (weightedSNorm dense sparse)

/-- The "weighted" policy (`Rag_retrived.py` lines 398-423): zip the
sorted union with the fused scores, stable-sort descending by score,
take `top_k`, tag "weighted". -/
def weightedMethod (dense sparse : List (ℤ × ℚ)) (top_k : ℕ)
    (alpha : ℚ) : List FusedResult :=
  (((((sortedUnion dense sparse).zip
      (weightedFusedScores dense sparse alpha)).insertionSort
        descBySnd).take top_k).map (fun p => ⟨p.1, p.2, "weighted"⟩))

/-- The policy dispatch of `hybrid_search` (`Rag_retrived.py` lines 311,
370, 398, 425): three string-compared branches, then
`raise ValueError(...)` for anything else. -/
def hybrid_search (method : String) (dense sparse : List (ℤ × ℚ))
    (top_k : ℕ) (alpha : ℚ) (rrf_k : ℕ) (ord : List ℤ) :
    Except String (List FusedResult) :=
  if method = "equal" then .ok (equalMethod dense sparse top_k)
  else if method = "rrf" then .ok (rrfMethod dense sparse top_k rrf_k ord)
  else if method = "weighted" then .ok (weightedMethod dense sparse top_k alpha)
  else .error "ValueError: method must be one of: equal, weighted, rrf"

/-- Ascending-by-key comparison for sorting (index, distance) pairs. -/
def ascBySnd (a b : ℕ × ℚ) : Prop :=
  a.2 ≤ b.2

instance : DecidableRel ascBySnd :=
  fun a b => (inferInstance : Decidable (a.2 ≤ b.2))

instance : IsTotal (ℕ × ℚ) ascBySnd :=
  ⟨fun a b => le_total a.2 b.2⟩

instance : IsTrans (ℕ × ℚ) ascBySnd :=
  ⟨fun _ _ _ h1 h2 => le_trans h1 h2⟩

/-- Indices `0..N-1` sorted by ascending value of `xs`. -/
def argsortAsc (xs : List ℚ) : List ℕ :=
  (xs.enum.insertionSort ascBySnd).map Prod.fst

/-- IEEE single-precision FLT_MAX, the distance FAISS reports for padded
(missing) neighbor slots. -/
def fltMax : ℚ :=
  340282346638528859811704183484516925440

/-- Modelled from the FAISS documentation for `IndexFlatL2.search` (the
library call at `Rag_retrived.py` line 236, not repository code): the
`k` nearest corpus positions by ascending squared-L2 distance are
returned and, when `k` exceeds the number of indexed vectors, the label
array is padded with `-1` (distances with a FLT_MAX sentinel) — "If
there are not enough results for a query, the result array is padded
with -1s."  `dists` is the distance of the query to each corpus vector,
indexed by position. -/
def faissSearch (dists : List ℚ) (k : ℕ) : List ℤ × List ℚ :=
  let ord := (argsortAsc dists).take k
  (ord.map (fun i => (i : ℤ)) ++ List.replicate (k - ord.length) (-1),
   ord.map (fun i => dists.getD i 0) ++ List.replicate (k - ord.length) fltMax)

/-- `np.clip(x, lo, hi)`. -/
def clip (x lo hi : ℚ) : ℚ :=
  max lo (min x hi)

/-- `_dense_scores_faiss` (`Rag_retrived.py` lines 222-243): run the
FAISS search, convert distances with `sim = 1 - D/2`, clip to [-1, 1],
and return the label array untouched. -/
def denseScoresFaiss (dists : List ℚ) (k : ℕ) : List ℤ × List ℚ :=
  let I := (faissSearch dists k).1
  let D := (faissSearch dists k).2
  (I, D.map (fun d0 => clip (1 - d0 / 2) (-1) 1))

/-- Python list indexing `xs[i]` for a list of length `n`: a negative
index wraps from the end (`xs[-1]` is the last element), and anything
outside `[-n, n)` raises IndexError (`none`). -/
def pyGetIdx (n : ℕ) (i : ℤ) : Option ℕ :=
  if 0 ≤ i ∧ i < (n : ℤ) then some i.toNat
  else if -(n : ℤ) ≤ i ∧ i < 0 then some ((n : ℤ) + i).toNat
  else none

/-- A metadata field value: corpus records hold strings, materialization
adds the rational `score`. -/
inductive Val where
  | str (s : String)
  | num (q : ℚ)
deriving DecidableEq

/-- A corpus record: an ordered field-name/value mapping, as a Python
dict with string keys. -/
abbrev RecordV := List (String × Val)

/-- Python `rec[k] = v` on the dict modelled by `RecordV`: overwrite the
existing entry in place, else append. -/
def recSet (r : RecordV) (k : String) (v : Val) : RecordV :=
  if r.any (fun p => p.1 = k) then r.map (fun p => if p.1 = k then (k, v) else p)
  else r ++ [(k, v)]

/-- Result materialization (`Rag_retrived.py` lines 323-326 / 335-337 /
389-392 / 419-422) over an explicit heap of records, so that mutation is
observable: `st` is the heap (addresses are list indices, allocation
appends), `corpusAddrs` maps corpus position `j` to the address of the
stored record `info[keys[j]]`.  For each fused result:
`rec = dict(info[keys[i]])` copies the record to a fresh address, then
`rec["retrieval"] = tag` and `rec["score"] = score` mutate only the
copy.  Python's `keys[i]` wraps negative `i` (`pyGetIdx`); a position
outside `[-N, N)` raises IndexError.  Returns the final heap and the
addresses of the materialized results. -/
def materializeAll (corpusAddrs : List ℕ) :
    List FusedResult → List RecordV → Except String (List RecordV × List ℕ)
  | [], st => .ok (st, [])
  | fr :: rest, st =>
    match pyGetIdx corpusAddrs.length fr.pos with
    | none => .error "IndexError: list index out of range"
    | some j =>
      let origAddr := corpusAddrs.getD j 0
      let orig := st.getD origAddr []
      let newAddr := st.length
      let st2 := (st ++ [orig]).set newAddr
        (recSet (recSet orig "retrieval" (.str fr.tag)) "score" (.num fr.score))
      match materializeAll corpusAddrs rest st2 with
      | .error e => .error e
      | .ok (stF, addrs) => .ok (stF, newAddr :: addrs)

/-- Dense candidate list refuting C2: three candidates, all with dense
score exactly 0.5. -/
def c2dense : List (ℤ × ℚ) :=
  [(0, 1/2), (1, 1/2), (2, 1/2)]

/-- Sparse candidate list refuting C2: one candidate at a position the
dense list does not contain. -/
def c2sparse : List (ℤ × ℚ) :=
  [(3, 1)]

/-- Dense candidate list for the C3 tie: positions 1 and 8 chosen
because CPython's hash-set iteration visits `{1, 8}` as `8, 1`. -/
def c3dense : List (ℤ × ℚ) :=
  [(1, 9/10), (8, 4/5)]

/-- Sparse candidate list for the C3 tie: the two positions in swapped
rank order, so both end with identical RRF scores. -/
def c3sparse : List (ℤ × ℚ) :=
  [(8, 5), (1, 4)]

/-- A three-record corpus heap for the materialization theorems. -/
def c7store : List RecordV :=
  [[("chunk", Val.str "rec0")], [("chunk", Val.str "rec1")], [("chunk", Val.str "rec2")]]

theorem mkItem_pos (tg : String) (m : List (ℤ × ℚ)) (i : ℤ) :
    (mkItem tg m i).pos = i :=
  rfl

theorem map_pos_map_mkItem (tg : String) (m : List (ℤ × ℚ)) (lst : List ℤ) :
    (lst.map (mkItem tg m)).map FusedResult.pos = lst := by
  induction lst with
  | nil => rfl
  | cons i rest ih => simp [mkItem, ih]

theorem firstOccByPos_append (a b : List FusedResult) : ∀ seen : List ℤ,
    firstOccByPos seen (a ++ b)
      = firstOccByPos seen a ++ firstOccByPos (firstOccSeen seen a) b := by
  induction a with
  | nil => intro seen; simp [firstOccByPos, firstOccSeen]
  | cons r rest ih =>
    intro seen
    by_cases h : r.pos ∈ seen <;> simp [firstOccByPos, firstOccSeen, h, ih]

theorem firstOccSeen_append (a b : List FusedResult) : ∀ seen : List ℤ,
    firstOccSeen seen (a ++ b) = firstOccSeen (firstOccSeen seen a) b := by
  induction a with
  | nil => intro seen; simp [firstOccSeen]
  | cons r rest ih =>
    intro seen
    by_cases h : r.pos ∈ seen <;> simp [firstOccSeen, h, ih]

theorem mem_firstOccSeen (l : List FusedResult) : ∀ (seen : List ℤ) (p : ℤ),
    p ∈ firstOccSeen seen l ↔ p ∈ seen ∨ p ∈ l.map FusedResult.pos := by
  induction l with
  | nil => intro seen p; simp [firstOccSeen]
  | cons r rest ih =>
    intro seen p
    by_cases h : r.pos ∈ seen
    · simp only [firstOccSeen, if_pos h, ih, List.map_cons, List.mem_cons]
      constructor
      · rintro (hp | hp)
        · exact Or.inl hp
        · exact Or.inr (Or.inr hp)
      · rintro (hp | hp | hp)
        · exact Or.inl hp
        · exact Or.inl (hp ▸ h)
        · exact Or.inr hp
    · simp only [firstOccSeen, if_neg h, ih, List.map_cons, List.mem_cons]
      tauto

theorem mem_of_mem_firstOccByPos (l : List FusedResult) : ∀ (seen : List ℤ)
    (r : FusedResult), r ∈ firstOccByPos seen l → r ∈ l := by
  induction l with
  | nil => intro seen r h; simp [firstOccByPos] at h
  | cons x rest ih =>
    intro seen r h
    by_cases hx : x.pos ∈ seen
    · simp only [firstOccByPos, if_pos hx] at h
      exact List.mem_cons_of_mem x (ih seen r h)
    · simp only [firstOccByPos, if_neg hx, List.mem_cons] at h
      rcases h with h | h
      · exact h ▸ List.mem_cons_self x rest
      · exact List.mem_cons_of_mem x (ih _ r h)

theorem mem_pos_firstOccByPos (l : List FusedResult) : ∀ (seen : List ℤ) (p : ℤ),
    p ∈ (firstOccByPos seen l).map FusedResult.pos
      ↔ p ∈ l.map FusedResult.pos ∧ p ∉ seen := by
  induction l with
  | nil => intro seen p; simp [firstOccByPos]
  | cons x rest ih =>
    intro seen p
    by_cases hx : x.pos ∈ seen
    · simp only [firstOccByPos, if_pos hx, ih, List.map_cons, List.mem_cons]
      constructor
      · rintro ⟨hp, hns⟩; exact ⟨Or.inr hp, hns⟩
      · rintro ⟨hp | hp, hns⟩
        · subst hp; exact absurd hx hns
        · exact ⟨hp, hns⟩
    · simp only [firstOccByPos, if_neg hx, List.map_cons, List.mem_cons, ih, not_or]
      constructor
      · rintro (hp | ⟨hp, _, hns⟩)
        · subst hp; exact ⟨Or.inl rfl, hx⟩
        · exact ⟨Or.inr hp, hns⟩
      · rintro ⟨hp | hp, hns⟩
        · exact Or.inl hp
        · by_cases hpx : p = x.pos
          · exact Or.inl hpx
          · exact Or.inr ⟨hp, hpx, hns⟩

theorem nodup_pos_firstOccByPos (l : List FusedResult) : ∀ seen : List ℤ,
    ((firstOccByPos seen l).map FusedResult.pos).Nodup := by
  induction l with
  | nil => intro seen; simp [firstOccByPos]
  | cons x rest ih =>
    intro seen
    by_cases hx : x.pos ∈ seen
    · simpa only [firstOccByPos, if_pos hx] using ih seen
    · simp only [firstOccByPos, if_neg hx, List.map_cons, List.nodup_cons]
      refine ⟨fun hmem => ?_, ih _⟩
      exact ((mem_pos_firstOccByPos rest _ _).mp hmem).2 (List.mem_cons_self _ _)

theorem emitLoopA_full (k : ℕ) (tg : String) (m : List (ℤ × ℚ)) (lst : List ℤ) :
    ∀ (seen : List ℤ) (results : List FusedResult),
    results.length < k →
    k ≤ (results ++ firstOccByPos seen (lst.map (mkItem tg m))).length →
    (emitLoopA k tg m lst seen results).2
      = ((results ++ firstOccByPos seen (lst.map (mkItem tg m))).take k, true) := by
  induction lst with
  | nil =>
    intro seen results hlt hge
    simp only [List.map_nil, firstOccByPos, List.append_nil] at hge
    omega
  | cons i rest ih =>
    intro seen results hlt hge
    by_cases hi : i ∈ seen
    · rw [List.map_cons, firstOccByPos, mkItem_pos, if_pos hi] at hge ⊢
      rw [emitLoopA, if_pos hi]
      exact ih seen results hlt hge
    · rw [List.map_cons, firstOccByPos, mkItem_pos, if_neg hi,
        List.append_cons results (mkItem tg m i)] at hge ⊢
      rw [emitLoopA, if_neg hi]
      simp only []
      by_cases hfull : k ≤ (results ++ [mkItem tg m i]).length
      · rw [if_pos hfull, List.take_append_of_le_length hfull]
      · rw [if_neg hfull]
        push_neg at hfull
        exact ih (i :: seen) (results ++ [mkItem tg m i]) hfull hge

theorem emitLoopA_partial (k : ℕ) (tg : String) (m : List (ℤ × ℚ)) (lst : List ℤ) :
    ∀ (seen : List ℤ) (results : List FusedResult),
    (results ++ firstOccByPos seen (lst.map (mkItem tg m))).length < k →
    emitLoopA k tg m lst seen results
      = (firstOccSeen seen (lst.map (mkItem tg m)),
         results ++ firstOccByPos seen (lst.map (mkItem tg m)), false) := by
  induction lst with
  | nil =>
    intro seen results _
    simp [emitLoopA, firstOccByPos, firstOccSeen]
  | cons i rest ih =>
    intro seen results hfull
    by_cases hi : i ∈ seen
    · rw [List.map_cons, firstOccByPos, mkItem_pos, if_pos hi] at hfull ⊢
      rw [firstOccSeen, mkItem_pos, if_pos hi]
      rw [emitLoopA, if_pos hi]
      exact ih seen results hfull
    · rw [List.map_cons, firstOccByPos, mkItem_pos, if_neg hi,
        List.append_cons results (mkItem tg m i)] at hfull ⊢
      rw [firstOccSeen, mkItem_pos, if_neg hi]
      rw [emitLoopA, if_neg hi]
      simp only []
      have hnot : ¬ k ≤ (results ++ [mkItem tg m i]).length := by
        have := List.length_append (results ++ [mkItem tg m i])
          (firstOccByPos (i :: seen) (rest.map (mkItem tg m)))
        omega
      rw [if_neg hnot]
      exact ih (i :: seen) (results ++ [mkItem tg m i]) hfull

theorem emitLoopB_take (k : ℕ) (tg : String) (m : List (ℤ × ℚ)) (lst : List ℤ) :
    ∀ (seen : List ℤ) (results : List FusedResult),
    results.length ≤ k →
    (emitLoopB k tg m lst seen results).2
      = (results ++ firstOccByPos seen (lst.map (mkItem tg m))).take k := by
  induction lst with
  | nil =>
    intro seen results hle
    simp [emitLoopB, firstOccByPos, List.take_of_length_le hle]
  | cons i rest ih =>
    intro seen results hle
    by_cases hk : k ≤ results.length
    · rw [List.take_append_of_le_length hk, List.take_of_length_le hle]
      rw [emitLoopB, if_pos hk]
    · by_cases hi : i ∈ seen
      · rw [List.map_cons, firstOccByPos, mkItem_pos, if_pos hi]
        rw [emitLoopB, if_neg hk, if_pos hi]
        exact ih seen results hle
      · rw [List.map_cons, firstOccByPos, mkItem_pos, if_neg hi,
          List.append_cons results (mkItem tg m i)]
        rw [emitLoopB, if_neg hk, if_neg hi]
        refine ih (i :: seen) (results ++ [mkItem tg m i]) ?_
        simp only [List.length_append, List.length_cons, List.length_nil]
        omega

theorem emitLoopB_all (k : ℕ) (tg : String) (m : List (ℤ × ℚ)) (lst : List ℤ) :
    ∀ (seen : List ℤ) (results : List FusedResult),
    (results ++ firstOccByPos seen (lst.map (mkItem tg m))).length < k →
    emitLoopB k tg m lst seen results
      = (firstOccSeen seen (lst.map (mkItem tg m)),
         results ++ firstOccByPos seen (lst.map (mkItem tg m))) := by
  induction lst with
  | nil =>
    intro seen results _
    simp [emitLoopB, firstOccByPos, firstOccSeen]
  | cons i rest ih =>
    intro seen results hfull
    have hk : ¬ k ≤ results.length := by
      rw [List.length_append] at hfull
      omega
    by_cases hi : i ∈ seen
    · rw [List.map_cons, firstOccByPos, mkItem_pos, if_pos hi] at hfull ⊢
      rw [firstOccSeen, mkItem_pos, if_pos hi]
      rw [emitLoopB, if_neg hk, if_pos hi]
      exact ih seen results hfull
    · rw [List.map_cons, firstOccByPos, mkItem_pos, if_neg hi,
        List.append_cons results (mkItem tg m i)] at hfull ⊢
      rw [firstOccSeen, mkItem_pos, if_neg hi]
      rw [emitLoopB, if_neg hk, if_neg hi]
      exact ih (i :: seen) (results ++ [mkItem tg m i]) hfull

theorem emitLoopB_zero (tg : String) (m : List (ℤ × ℚ)) (lst : List ℤ)
    (seen : List ℤ) (results : List FusedResult) :
    emitLoopB 0 tg m lst seen results = (seen, results) := by
  cases lst <;> simp [emitLoopB]

theorem loopComposition (k : ℕ) (t1 t2 t3 t4 : String)
    (m1 m2 m3 m4 : List (ℤ × ℚ)) (l1 l2 l3 l4 : List ℤ) (hk : 0 < k) :
    runLoops k t1 t2 t3 t4 m1 m2 m3 m4 l1 l2 l3 l4
      = (firstOccByPos [] (l1.map (mkItem t1 m1) ++ (l2.map (mkItem t2 m2)
          ++ (l3.map (mkItem t3 m3) ++ l4.map (mkItem t4 m4))))).take k := by
  unfold runLoops
  rw [firstOccByPos_append, firstOccByPos_append, firstOccByPos_append]
  generalize hW1 : List.map (mkItem t1 m1) l1 = W1
  generalize hW2 : List.map (mkItem t2 m2) l2 = W2
  generalize hW3 : List.map (mkItem t3 m3) l3 = W3
  generalize hW4 : List.map (mkItem t4 m4) l4 = W4
  dsimp only
  by_cases h1 : k ≤ (firstOccByPos [] W1).length
  · have hA := emitLoopA_full k t1 m1 l1 [] [] (by simpa using hk)
      (by rw [hW1]; simpa using h1)
    rw [List.nil_append, hW1] at hA
    rw [hA]
    dsimp only
    rw [if_pos rfl, List.take_append_of_le_length h1]
  · push_neg at h1
    have hA := emitLoopA_partial k t1 m1 l1 [] []
      (by rw [hW1]; simpa using h1)
    rw [List.nil_append, hW1] at hA
    rw [hA]
    dsimp only
    rw [if_neg Bool.false_ne_true]
    by_cases h2 : k ≤ (firstOccByPos [] W1
        ++ firstOccByPos (firstOccSeen [] W1) W2).length
    · have hB := emitLoopA_full k t2 m2 l2 (firstOccSeen [] W1)
        (firstOccByPos [] W1) h1 (by rw [hW2]; exact h2)
      rw [hW2] at hB
      rw [hB]
      dsimp only
      rw [if_pos rfl, ← List.append_assoc, List.take_append_of_le_length h2]
    · push_neg at h2
      have hB := emitLoopA_partial k t2 m2 l2 (firstOccSeen [] W1)
        (firstOccByPos [] W1) (by rw [hW2]; exact h2)
      rw [hW2] at hB
      rw [hB]
      dsimp only
      rw [if_neg Bool.false_ne_true]
      by_cases h3 : (firstOccByPos [] W1 ++ firstOccByPos (firstOccSeen [] W1) W2
          ++ firstOccByPos (firstOccSeen (firstOccSeen [] W1) W2) W3).length < k
      · have hC := emitLoopB_all k t3 m3 l3 (firstOccSeen (firstOccSeen [] W1) W2)
          (firstOccByPos [] W1 ++ firstOccByPos (firstOccSeen [] W1) W2)
          (by rw [hW3]; exact h3)
        rw [hW3] at hC
        rw [hC]
        dsimp only
        have hD := emitLoopB_take k t4 m4 l4
          (firstOccSeen (firstOccSeen (firstOccSeen [] W1) W2) W3)
          (firstOccByPos [] W1 ++ firstOccByPos (firstOccSeen [] W1) W2
            ++ firstOccByPos (firstOccSeen (firstOccSeen [] W1) W2) W3)
          (le_of_lt h3)
        rw [hW4] at hD
        rw [hD, List.take_take, min_self]
        simp only [List.append_assoc]
      · push_neg at h3
        have hC := emitLoopB_take k t3 m3 l3 (firstOccSeen (firstOccSeen [] W1) W2)
          (firstOccByPos [] W1 ++ firstOccByPos (firstOccSeen [] W1) W2)
          (le_of_lt h2)
        rw [hW3] at hC
        rw [hC]
        have hD := emitLoopB_take k t4 m4 l4
          (emitLoopB k t3 m3 l3 (firstOccSeen (firstOccSeen [] W1) W2)
            (firstOccByPos [] W1 ++ firstOccByPos (firstOccSeen [] W1) W2)).1
          ((firstOccByPos [] W1 ++ firstOccByPos (firstOccSeen [] W1) W2
            ++ firstOccByPos (firstOccSeen (firstOccSeen [] W1) W2) W3).take k)
          (by rw [List.length_take]; omega)
        rw [hW4] at hD
        rw [hD]
        rw [List.take_append_of_le_length (by rw [List.length_take]; omega),
          List.take_take, min_self, List.take_take, min_self,
          ← List.append_assoc, ← List.append_assoc,
          List.take_append_of_le_length h3]

theorem equalMethod_eq (d s : List (ℤ × ℚ)) (k : ℕ) :
    equalMethod d s k = (firstOccByPos [] (equalWork d s k)).take k := by
  rcases Nat.eq_zero_or_pos k with hk0 | hkpos
  · subst hk0
    simp [equalMethod, runLoops, emitLoopA, emitLoopB_zero]
  · have h := loopComposition k "dense" "sparse" "dense" "sparse" d s d s
      ((d.map Prod.fst).take ((k + 1) / 2)) ((s.map Prod.fst).take (k / 2))
      ((d.map Prod.fst).drop ((k + 1) / 2)) ((s.map Prod.fst).drop (k / 2)) hkpos
    rw [equalMethod, equalWork, h, List.append_assoc, List.append_assoc]

theorem firstOccByPos_nil_length (l : List FusedResult) :
    (firstOccByPos [] l).length = (l.map FusedResult.pos).toFinset.card := by
  have hnd := nodup_pos_firstOccByPos l []
  calc (firstOccByPos [] l).length
      = ((firstOccByPos [] l).map FusedResult.pos).length :=
        (List.length_map _ _).symm
    _ = ((firstOccByPos [] l).map FusedResult.pos).toFinset.card :=
        (List.toFinset_card_of_nodup hnd).symm
    _ = (l.map FusedResult.pos).toFinset.card := by
        congr 1
        ext p
        simp only [List.mem_toFinset]
        rw [mem_pos_firstOccByPos]
        simp

theorem equalWork_pos_toFinset (d s : List (ℤ × ℚ)) (k : ℕ) :
    ((equalWork d s k).map FusedResult.pos).toFinset
      = (d.map Prod.fst ++ s.map Prod.fst).toFinset := by
  ext p
  simp only [equalWork, List.map_append, map_pos_map_mkItem, List.mem_toFinset,
    List.mem_append]
  constructor
  · rintro (((h | h) | h) | h)
    · exact Or.inl (List.mem_of_mem_take h)
    · exact Or.inr (List.mem_of_mem_take h)
    · exact Or.inl (List.mem_of_mem_drop h)
    · exact Or.inr (List.mem_of_mem_drop h)
  · rintro (h | h)
    · rw [← List.take_append_drop ((k + 1) / 2) (d.map Prod.fst),
        List.mem_append] at h
      rcases h with h | h
      · exact Or.inl (Or.inl (Or.inl h))
      · exact Or.inl (Or.inr h)
    · rw [← List.take_append_drop (k / 2) (s.map Prod.fst),
        List.mem_append] at h
      rcases h with h | h
      · exact Or.inl (Or.inl (Or.inr h))
      · exact Or.inr h

theorem equalMethod_length (d s : List (ℤ × ℚ)) (k : ℕ) :
    (equalMethod d s k).length
      = min k ((d.map Prod.fst ++ s.map Prod.fst).toFinset.card) := by
  rw [equalMethod_eq, List.length_take, firstOccByPos_nil_length,
    equalWork_pos_toFinset]

theorem equalMethod_nodup (d s : List (ℤ × ℚ)) (k : ℕ) :
    ((equalMethod d s k).map FusedResult.pos).Nodup := by
  rw [equalMethod_eq, List.map_take]
  exact (nodup_pos_firstOccByPos (equalWork d s k) []).sublist
    (List.take_sublist _ _)

theorem equalMethod_mem_work (d s : List (ℤ × ℚ)) (k : ℕ) (r : FusedResult)
    (hr : r ∈ equalMethod d s k) : r ∈ equalWork d s k := by
  rw [equalMethod_eq] at hr
  exact mem_of_mem_firstOccByPos _ [] r (List.mem_of_mem_take hr)

theorem mem_equalWork_provenance (d s : List (ℤ × ℚ)) (k : ℕ) (r : FusedResult)
    (h : r ∈ equalWork d s k) :
    (r.tag = "dense" ∧ r.score = dictGet d r.pos 0)
      ∨ (r.tag = "sparse" ∧ r.score = dictGet s r.pos 0) := by
  simp only [equalWork, List.mem_append, List.mem_map] at h
  rcases h with (((⟨i, _, rfl⟩ | ⟨i, _, rfl⟩) | ⟨i, _, rfl⟩) | ⟨i, _, rfl⟩)
  · exact Or.inl ⟨rfl, rfl⟩
  · exact Or.inr ⟨rfl, rfl⟩
  · exact Or.inl ⟨rfl, rfl⟩
  · exact Or.inr ⟨rfl, rfl⟩

theorem map_fst_pair (f : ℤ → ℚ) (ord : List ℤ) :
    ord.map (Prod.fst ∘ fun i => (i, f i)) = ord := by
  induction ord with
  | nil => rfl
  | cons i rest ih => simp only [List.map_cons, Function.comp_apply, ih]

theorem rrf_sorted_fst_perm (d s : List (ℤ × ℚ)) (rrfk : ℕ) (ord : List ℤ) :
    ((((ord.map (fun i =>
        (i, rrfScore (d.map Prod.fst) (s.map Prod.fst) rrfk i))).insertionSort
          descBySnd).map Prod.fst)).Perm ord := by
  have h1 := (List.perm_insertionSort descBySnd
    (ord.map (fun i =>
      (i, rrfScore (d.map Prod.fst) (s.map Prod.fst) rrfk i)))).map
    (Prod.fst (α := ℤ) (β := ℚ))
  rw [List.map_map] at h1
  rwa [map_fst_pair] at h1

theorem rrfMethod_nodup (d s : List (ℤ × ℚ)) (k rrfk : ℕ) (ord : List ℤ)
    (h : ord.Nodup) :
    ((rrfMethod d s k rrfk ord).map FusedResult.pos).Nodup := by
  rw [rrfMethod, List.map_map]
  have hcomp : (FusedResult.pos ∘ fun p : ℤ × ℚ =>
      (⟨p.1, p.2, "rrf"⟩ : FusedResult)) = Prod.fst := rfl
  rw [hcomp, List.map_take]
  exact (((rrf_sorted_fst_perm d s rrfk ord).nodup_iff).mpr h).sublist
    (List.take_sublist _ _)

theorem rrfMethod_length (d s : List (ℤ × ℚ)) (k rrfk : ℕ) (ord : List ℤ) :
    (rrfMethod d s k rrfk ord).length = min k ord.length := by
  rw [rrfMethod, List.length_map, List.length_take, List.length_insertionSort,
    List.length_map]

theorem rrfMethod_sorted (d s : List (ℤ × ℚ)) (k rrfk : ℕ) (ord : List ℤ) :
    ((rrfMethod d s k rrfk ord).map FusedResult.score).Sorted (· ≥ ·) := by
  rw [rrfMethod, List.map_map]
  have hcomp : (FusedResult.score ∘ fun p : ℤ × ℚ =>
      (⟨p.1, p.2, "rrf"⟩ : FusedResult)) = Prod.snd := rfl
  rw [hcomp]
  have hs := List.sorted_insertionSort descBySnd
    (ord.map (fun i => (i, rrfScore (d.map Prod.fst) (s.map Prod.fst) rrfk i)))
  have hs2 := hs.sublist (List.take_sublist k _)
  exact List.pairwise_map.mpr hs2

theorem rrfMethod_mem (d s : List (ℤ × ℚ)) (k rrfk : ℕ) (ord : List ℤ)
    (r : FusedResult) (hr : r ∈ rrfMethod d s k rrfk ord) :
    r.pos ∈ ord
      ∧ r.score = rrfScore (d.map Prod.fst) (s.map Prod.fst) rrfk r.pos
      ∧ r.tag = "rrf" := by
  rw [rrfMethod] at hr
  rcases List.mem_map.mp hr with ⟨p, hp, rfl⟩
  have hp2 := List.mem_of_mem_take hp
  rw [List.mem_insertionSort] at hp2
  rcases List.mem_map.mp hp2 with ⟨i, hi, rfl⟩
  exact ⟨hi, rfl, rfl⟩

theorem minmax_length (x : List ℚ) : (minmax x).length = x.length := by
  cases x with
  | nil => rfl
  | cons a rest =>
    simp only [minmax]
    split_ifs <;> simp

theorem sortedUnion_nodup (d s : List (ℤ × ℚ)) : (sortedUnion d s).Nodup := by
  rw [sortedUnion]
  exact (List.perm_insertionSort (fun a b => a ≤ b)
    ((d.map Prod.fst ++ s.map Prod.fst).dedup)).nodup_iff.mpr
    (List.nodup_dedup _)

theorem mem_sortedUnion (d s : List (ℤ × ℚ)) (i : ℤ) :
    i ∈ sortedUnion d s ↔ i ∈ d.map Prod.fst ∨ i ∈ s.map Prod.fst := by
  rw [sortedUnion, List.mem_insertionSort, List.mem_dedup, List.mem_append]

theorem weightedDNorm_length (d s : List (ℤ × ℚ)) :
    (weightedDNorm d s).length = (sortedUnion d s).length := by
  rw [weightedDNorm, minmax_length, List.length_map]

theorem weightedSNorm_length (d s : List (ℤ × ℚ)) :
    (weightedSNorm d s).length = (sortedUnion d s).length := by
  rw [weightedSNorm, minmax_length, List.length_map]

theorem weightedFusedScores_length (d s : List (ℤ × ℚ)) (alpha : ℚ) :
    (weightedFusedScores d s alpha).length = (sortedUnion d s).length := by
  rw [weightedFusedScores, List.length_zipWith, weightedDNorm_length,
    weightedSNorm_length, min_self]

theorem weighted_zip_fst (d s : List (ℤ × ℚ)) (alpha : ℚ) :
    ((sortedUnion d s).zip (weightedFusedScores d s alpha)).map Prod.fst
      = sortedUnion d s :=
  List.map_fst_zip _ _ (le_of_eq (weightedFusedScores_length d s alpha).symm)

theorem weightedMethod_nodup (d s : List (ℤ × ℚ)) (k : ℕ) (alpha : ℚ) :
    ((weightedMethod d s k alpha).map FusedResult.pos).Nodup := by
  rw [weightedMethod, List.map_map]
  have hcomp : (FusedResult.pos ∘ fun p : ℤ × ℚ =>
      (⟨p.1, p.2, "weighted"⟩ : FusedResult)) = Prod.fst := rfl
  rw [hcomp, List.map_take]
  have hperm := (List.perm_insertionSort descBySnd
    ((sortedUnion d s).zip (weightedFusedScores d s alpha))).map
    (Prod.fst (α := ℤ) (β := ℚ))
  rw [weighted_zip_fst] at hperm
  exact (hperm.nodup_iff.mpr (sortedUnion_nodup d s)).sublist
    (List.take_sublist _ _)

theorem dictFold_not_mem (i : ℤ) (m : List (ℤ × ℚ)) (hi : i ∉ m.map Prod.fst) :
    ∀ acc : Option ℚ,
    m.foldl (fun acc p => if p.1 = i then some p.2 else acc) acc = acc := by
  induction m with
  | nil => intro acc; rfl
  | cons p rest ih =>
    intro acc
    rw [List.map_cons, List.mem_cons, not_or] at hi
    rw [List.foldl_cons, if_neg (fun he => hi.1 he.symm)]
    exact ih hi.2 acc

theorem dictFold_const (i : ℤ) (c : ℚ) (m : List (ℤ × ℚ))
    (hall : ∀ p ∈ m, p.2 = c) (hi : i ∈ m.map Prod.fst) :
    ∀ acc : Option ℚ,
    m.foldl (fun acc p => if p.1 = i then some p.2 else acc) acc = some c := by
  induction m with
  | nil => simp at hi
  | cons p rest ih =>
    intro acc
    rw [List.foldl_cons]
    by_cases hmem : i ∈ rest.map Prod.fst
    · exact ih (fun q hq => hall q (List.mem_cons_of_mem _ hq)) hmem _
    · have hp : p.1 = i := by
        rw [List.map_cons, List.mem_cons] at hi
        rcases hi with hi | hi
        · exact hi.symm
        · exact absurd hi hmem
      rw [if_pos hp, hall p (List.mem_cons_self _ _)]
      exact dictFold_not_mem i rest hmem (some c)

theorem dictGet_const (m : List (ℤ × ℚ)) (c : ℚ) (i : ℤ)
    (hall : ∀ p ∈ m, p.2 = c) (hi : i ∈ m.map Prod.fst) :
    dictGet m i 0 = c := by
  rw [dictGet, dictGet?, dictFold_const i c m hall hi none]
  rfl

theorem foldl_min_const (c : ℚ) : ∀ n : ℕ,
    (List.replicate n c).foldl min c = c := by
  intro n
  induction n with
  | zero => rfl
  | succ n ih => rw [List.replicate_succ, List.foldl_cons, min_self]; exact ih

theorem foldl_max_const (c : ℚ) : ∀ n : ℕ,
    (List.replicate n c).foldl max c = c := by
  intro n
  induction n with
  | zero => rfl
  | succ n ih => rw [List.replicate_succ, List.foldl_cons, max_self]; exact ih

theorem minmax_replicate (n : ℕ) (c : ℚ) :
    minmax (List.replicate n c) = List.replicate n 0 := by
  cases n with
  | zero => rfl
  | succ n =>
    rw [List.replicate_succ, minmax]
    have hlo : (c :: List.replicate n c).foldl min c = c := by
      rw [List.foldl_cons, min_self]; exact foldl_min_const c n
    have hhi : (c :: List.replicate n c).foldl max c = c := by
      rw [List.foldl_cons, max_self]; exact foldl_max_const c n
    rw [hlo, hhi, if_pos (by norm_num), List.length_cons, List.length_replicate]

theorem zipWith_replicate_zero (alpha : ℚ) : ∀ (n : ℕ) (l : List ℚ),
    l.length = n →
    List.zipWith (fun dn sn => alpha * dn + (1 - alpha) * sn)
      (List.replicate n 0) l = l.map (fun x => (1 - alpha) * x) := by
  intro n
  induction n with
  | zero =>
    intro l hl
    rw [List.length_eq_zero] at hl
    subst hl
    rfl
  | succ n ih =>
    intro l hl
    cases l with
    | nil => simp at hl
    | cons x rest =>
      rw [List.replicate_succ, List.zipWith_cons_cons, List.map_cons,
        ih rest (by simpa using hl), mul_zero, zero_add]

theorem weightedDNorm_degenerate (d s : List (ℤ × ℚ)) (c : ℚ)
    (hall : ∀ p ∈ d, p.2 = c)
    (hsub : ∀ i ∈ s.map Prod.fst, i ∈ d.map Prod.fst) :
    weightedDNorm d s = List.replicate (sortedUnion d s).length 0 := by
  rw [weightedDNorm]
  have hmap : (sortedUnion d s).map (fun i => dictGet d i 0)
      = List.replicate ((sortedUnion d s).map (fun i => dictGet d i 0)).length c := by
    refine List.eq_replicate_of_mem ?_
    intro b hb
    rcases List.mem_map.mp hb with ⟨i, hi, rfl⟩
    have hid : i ∈ d.map Prod.fst := by
      rcases (mem_sortedUnion d s i).mp hi with h | h
      · exact h
      · exact hsub i h
    exact dictGet_const d c i hall hid
  rw [hmap, List.length_map, minmax_replicate]

theorem weightedFused_degenerate (d s : List (ℤ × ℚ)) (c alpha : ℚ)
    (hall : ∀ p ∈ d, p.2 = c)
    (hsub : ∀ i ∈ s.map Prod.fst, i ∈ d.map Prod.fst) :
    weightedFusedScores d s alpha
      = (weightedSNorm d s).map (fun x => (1 - alpha) * x) := by
  rw [weightedFusedScores, weightedDNorm_degenerate d s c hall hsub]
  exact zipWith_replicate_zero alpha (sortedUnion d s).length (weightedSNorm d s)
    (weightedSNorm_length d s)

theorem map_tag_map_mkItem (tg : String) (m : List (ℤ × ℚ)) (lst : List ℤ) :
    (lst.map (mkItem tg m)).map FusedResult.tag = List.replicate lst.length tg := by
  induction lst with
  | nil => rfl
  | cons i rest ih => simp [mkItem, ih, List.replicate_succ]

theorem firstOccByPos_no_skip (l : List FusedResult) : ∀ seen : List ℤ,
    (∀ p ∈ l.map FusedResult.pos, p ∉ seen) → (l.map FusedResult.pos).Nodup →
    firstOccByPos seen l = l := by
  induction l with
  | nil => intro seen _ _; rfl
  | cons r rest ih =>
    intro seen hdisj hnd
    rw [List.map_cons, List.nodup_cons] at hnd
    rw [firstOccByPos, if_neg (hdisj r.pos (by simp))]
    congr 1
    refine ih (r.pos :: seen) ?_ hnd.2
    intro p hp
    rw [List.mem_cons, not_or]
    exact ⟨fun he => hnd.1 (he ▸ hp), hdisj p (List.mem_cons_of_mem _ hp)⟩

/-- C1: for every `top_k ≥ 0`, every policy among "equal", "weighted" and
"rrf", and every pair of candidate lists, the fused result list has
length at most `top_k` and contains no two results with the same corpus
position.  For "rrf", `ord` is the iteration order of the Python set
union, which visits each member exactly once — hence the `Nodup`
hypothesis. -/
theorem c1_length_le_and_positions_nodup (d s : List (ℤ × ℚ)) (k rrfk : ℕ)
    (alpha : ℚ) (ord : List ℤ) (hord : ord.Nodup) :
    ((equalMethod d s k).length ≤ k
      ∧ ((equalMethod d s k).map FusedResult.pos).Nodup)
    ∧ ((weightedMethod d s k alpha).length ≤ k
      ∧ ((weightedMethod d s k alpha).map FusedResult.pos).Nodup)
    ∧ ((rrfMethod d s k rrfk ord).length ≤ k
      ∧ ((rrfMethod d s k rrfk ord).map FusedResult.pos).Nodup) := by
  refine ⟨⟨?_, equalMethod_nodup d s k⟩,
    ⟨?_, weightedMethod_nodup d s k alpha⟩,
    ⟨?_, rrfMethod_nodup d s k rrfk ord hord⟩⟩
  · rw [equalMethod_length]
    exact min_le_left _ _
  · rw [weightedMethod, List.length_map]
    exact List.length_take_le _ _
  · rw [rrfMethod_length]
    exact min_le_left _ _

theorem c1_witness :
    (equalMethod [((0 : ℤ), (1 : ℚ))] [((1 : ℤ), (2 : ℚ))] 1).length ≤ 1
    ∧ ((rrfMethod [((0 : ℤ), (1 : ℚ))] [((1 : ℤ), (2 : ℚ))] 1 60
        [0, 1]).map FusedResult.pos).Nodup := by
  have h := c1_length_le_and_positions_nodup [((0 : ℤ), (1 : ℚ))]
    [((1 : ℤ), (2 : ℚ))] 1 60 (3 / 5) [0, 1] (by decide)
  exact ⟨h.1.1, h.2.2.2⟩

/-- C5: under the "equal" policy the result length always equals
min(top_k, number of distinct positions in the union of the two
candidate lists) — full overlap is topped up via overflow, a `top_k` at
least the union size returns every distinct candidate with no padding
beyond them, and `top_k = 0` or two empty candidate lists yield the
empty result rather than an error. -/
theorem c5_equal_length_min (d s : List (ℤ × ℚ)) (k : ℕ) :
    (equalMethod d s k).length
        = min k ((d.map Prod.fst ++ s.map Prod.fst).toFinset.card)
    ∧ equalMethod d s 0 = []
    ∧ equalMethod ([] : List (ℤ × ℚ)) ([] : List (ℤ × ℚ)) k = [] := by
  refine ⟨equalMethod_length d s k, ?_, ?_⟩
  · refine List.length_eq_zero.mp ?_
    rw [equalMethod_length]
    simp
  · refine List.length_eq_zero.mp ?_
    rw [equalMethod_length]
    simp

/-- C8: any `method` string other than "equal", "weighted" and "rrf"
makes `hybrid_search` fail immediately with the ValueError (no result
list, no silent default), while each recognized string dispatches to its
policy without that error. -/
theorem c8_invalid_policy_errors (method : String) (d s : List (ℤ × ℚ))
    (k rrfk : ℕ) (alpha : ℚ) (ord : List ℤ)
    (h1 : method ≠ "equal") (h2 : method ≠ "weighted") (h3 : method ≠ "rrf") :
    hybrid_search method d s k alpha rrfk ord
        = .error "ValueError: method must be one of: equal, weighted, rrf"
    ∧ hybrid_search "equal" d s k alpha rrfk ord = .ok (equalMethod d s k)
    ∧ hybrid_search "rrf" d s k alpha rrfk ord = .ok (rrfMethod d s k rrfk ord)
    ∧ hybrid_search "weighted" d s k alpha rrfk ord
        = .ok (weightedMethod d s k alpha) := by
  refine ⟨?_, rfl, ?_, ?_⟩
  · rw [hybrid_search, if_neg h1, if_neg h3, if_neg h2]
  · rw [hybrid_search, if_neg (by decide), if_pos rfl]
  · rw [hybrid_search, if_neg (by decide), if_neg (by decide), if_pos rfl]

theorem c8_witness :
    hybrid_search "cosine" [] [] 5 (3 / 5) 60 []
      = .error "ValueError: method must be one of: equal, weighted, rrf" := by
  have h := c8_invalid_policy_errors "cosine" [] [] 5 (3 / 5) 60 []
    (by decide) (by decide) (by decide)
  exact h.1

/-- C4: the "equal" policy's output is, in order, the not-yet-seen prefix
of the dense list tagged "dense", then the not-yet-seen prefix of the
sparse list tagged "sparse", then dense overflow, then sparse overflow,
truncated at `top_k` (first conjunct: the output is the first-occurrence
filter of the four-block work sequence `equalWork`); and for `top_k = 6`
with duplicate-free, disjoint candidate lists of length at least 3, the
result is exactly 3 dense-tagged entries — the first three dense
positions in dense order — followed by 3 sparse-tagged entries. -/
theorem c4_equal_block_order (d s : List (ℤ × ℚ))
    (hd : (d.map Prod.fst).Nodup) (hs : (s.map Prod.fst).Nodup)
    (hdisj : ∀ p ∈ d.map Prod.fst, p ∉ s.map Prod.fst)
    (hld : 3 ≤ d.length) (hls : 3 ≤ s.length) :
    (∀ (d2 s2 : List (ℤ × ℚ)) (k : ℕ),
        equalMethod d2 s2 k = (firstOccByPos [] (equalWork d2 s2 k)).take k)
    ∧ (equalMethod d s 6).map FusedResult.tag
        = List.replicate 3 "dense" ++ List.replicate 3 "sparse"
    ∧ (equalMethod d s 6).map FusedResult.pos
        = (d.map Prod.fst).take 3 ++ (s.map Prod.fst).take 3 := by
  have hdlen : ((d.map Prod.fst).take 3).length = 3 :=
    List.length_take_of_le (by rw [List.length_map]; exact hld)
  have hslen : ((s.map Prod.fst).take 3).length = 3 :=
    List.length_take_of_le (by rw [List.length_map]; exact hls)
  have hw : equalWork d s 6
      = ((d.map Prod.fst).take 3).map (mkItem "dense" d)
        ++ ((s.map Prod.fst).take 3).map (mkItem "sparse" s)
        ++ ((d.map Prod.fst).drop 3).map (mkItem "dense" d)
        ++ ((s.map Prod.fst).drop 3).map (mkItem "sparse" s) := rfl
  have he1 : firstOccByPos []
      (((d.map Prod.fst).take 3).map (mkItem "dense" d))
      = ((d.map Prod.fst).take 3).map (mkItem "dense" d) := by
    refine firstOccByPos_no_skip _ [] (fun p _ => List.not_mem_nil p) ?_
    rw [map_pos_map_mkItem]
    exact hd.sublist (List.take_sublist _ _)
  have hsn1 : ∀ p,
      p ∈ firstOccSeen [] (((d.map Prod.fst).take 3).map (mkItem "dense" d))
      → p ∈ d.map Prod.fst := by
    intro p hp
    rcases (mem_firstOccSeen _ [] p).mp hp with h | h
    · exact absurd h (List.not_mem_nil p)
    · rw [map_pos_map_mkItem] at h
      exact List.mem_of_mem_take h
  have he2 : firstOccByPos
      (firstOccSeen [] (((d.map Prod.fst).take 3).map (mkItem "dense" d)))
      (((s.map Prod.fst).take 3).map (mkItem "sparse" s))
      = ((s.map Prod.fst).take 3).map (mkItem "sparse" s) := by
    refine firstOccByPos_no_skip _ _ ?_ ?_
    · intro p hp hmem
      rw [map_pos_map_mkItem] at hp
      exact hdisj p (hsn1 p hmem) (List.mem_of_mem_take hp)
    · rw [map_pos_map_mkItem]
      exact hs.sublist (List.take_sublist _ _)
  have hres : equalMethod d s 6
      = ((d.map Prod.fst).take 3).map (mkItem "dense" d)
        ++ ((s.map Prod.fst).take 3).map (mkItem "sparse" s) := by
    rw [equalMethod_eq, hw, List.append_assoc, List.append_assoc,
      firstOccByPos_append, he1, firstOccByPos_append, he2,
      ← List.append_assoc]
    refine List.take_left' ?_
    rw [List.length_append, List.length_map, List.length_map, hdlen, hslen]
  refine ⟨fun d2 s2 k => equalMethod_eq d2 s2 k, ?_, ?_⟩
  · rw [hres, List.map_append, map_tag_map_mkItem, map_tag_map_mkItem,
      hdlen, hslen]
  · rw [hres, List.map_append, map_pos_map_mkItem, map_pos_map_mkItem]

theorem c4_witness :
    (equalMethod [((0 : ℤ), (5 : ℚ)), (1, 4), (2, 3)]
        [((10 : ℤ), (9 : ℚ)), (11, 8), (12, 7)] 6).map FusedResult.tag
      = List.replicate 3 "dense" ++ List.replicate 3 "sparse" := by
  have h := c4_equal_block_order [((0 : ℤ), (5 : ℚ)), (1, 4), (2, 3)]
    [((10 : ℤ), (9 : ℚ)), (11, 8), (12, 7)] (by decide) (by decide)
    (by decide) (by decide) (by decide)
  exact h.2.1

/-- C3 (amended): under the "rrf" policy every emitted result's fused
score is `(1/(rrf_k + dense rank) if present else 0) + (1/(rrf_k +
sparse rank) if present else 0)` at its position, every result is tagged
"rrf", the output is sorted descending by fused score — with ties left
in the hash-set iteration order `ord`, NOT broken by ascending position
— and it is the truncation of the union to length
min(top_k, |union|). -/
theorem c3_rrf_amended (d s : List (ℤ × ℚ)) (k rrfk : ℕ) (ord : List ℤ)
    (hnd : ord.Nodup)
    (hmem : ∀ i, i ∈ ord ↔ i ∈ d.map Prod.fst ++ s.map Prod.fst) :
    (∀ r ∈ rrfMethod d s k rrfk ord,
        r.score = rrfScore (d.map Prod.fst) (s.map Prod.fst) rrfk r.pos
        ∧ r.tag = "rrf" ∧ r.pos ∈ ord)
    ∧ ((rrfMethod d s k rrfk ord).map FusedResult.score).Sorted (· ≥ ·)
    ∧ (rrfMethod d s k rrfk ord).length
        = min k ((d.map Prod.fst ++ s.map Prod.fst).toFinset.card) := by
  refine ⟨fun r hr => ?_, rrfMethod_sorted d s k rrfk ord, ?_⟩
  · have h := rrfMethod_mem d s k rrfk ord r hr
    exact ⟨h.2.1, h.2.2, h.1⟩
  · rw [rrfMethod_length]
    congr 1
    rw [← List.toFinset_card_of_nodup hnd]
    congr 1
    ext p
    simp only [List.mem_toFinset]
    exact hmem p

theorem c3_witness :
    (rrfMethod [((0 : ℤ), (2 : ℚ))] [((1 : ℤ), (3 : ℚ))] 2 60 [0, 1]).length
      = min 2 (([((0 : ℤ), (2 : ℚ))].map Prod.fst
          ++ [((1 : ℤ), (3 : ℚ))].map Prod.fst).toFinset.card) := by
  have h := c3_rrf_amended [((0 : ℤ), (2 : ℚ))] [((1 : ℤ), (3 : ℚ))] 2 60
    [0, 1] (by decide) (by intro i; simp)
  exact h.2.2

/-- C10 (implicit): under the "equal" policy each dense-tagged result
carries the raw dense similarity of its position as its score and each
sparse-tagged result the raw sparse score (no normalization); the dense
scale is clipped to [-1, 1] by `_dense_scores_faiss` while sparse scores
live on a different scale, so the equal-policy result list need not be
sorted descending by score — witnessed by a dense candidate with score 1
ranked ahead of a sparse candidate with score 5. -/
theorem c10_equal_raw_scores :
    (∀ (d s : List (ℤ × ℚ)) (k : ℕ), ∀ r ∈ equalMethod d s k,
        (r.tag = "dense" → r.score = dictGet d r.pos 0)
        ∧ (r.tag = "sparse" → r.score = dictGet s r.pos 0))
    ∧ (∀ (dists : List ℚ) (k : ℕ), ∀ q ∈ (denseScoresFaiss dists k).2,
        -1 ≤ q ∧ q ≤ 1)
    ∧ ¬ (((equalMethod [((0 : ℤ), (1 : ℚ))] [((1 : ℤ), (5 : ℚ))] 2).map
        FusedResult.score).Sorted (· ≥ ·)) := by
  refine ⟨?_, ?_, ?_⟩
  · intro d s k r hr
    have h := mem_equalWork_provenance d s k r (equalMethod_mem_work d s k r hr)
    rcases h with ⟨htag, hscore⟩ | ⟨htag, hscore⟩
    · refine ⟨fun _ => hscore, fun hsp => ?_⟩
      rw [htag] at hsp
      exact absurd hsp (by decide)
    · refine ⟨fun hde => ?_, fun _ => hscore⟩
      rw [htag] at hde
      exact absurd hde (by decide)
  · intro dists k q hq
    rcases List.mem_map.mp hq with ⟨v, _, rfl⟩
    constructor
    · exact le_max_left _ _
    · exact max_le (by norm_num) (min_le_right _ _)
  · decide

theorem c10_witness :
    (⟨0, 1, "dense"⟩ : FusedResult).score
      = dictGet [((0 : ℤ), (1 : ℚ))] (⟨0, 1, "dense"⟩ : FusedResult).pos 0 := by
  have h := c10_equal_raw_scores.1 [((0 : ℤ), (1 : ℚ))] [] 1
    ⟨0, 1, "dense"⟩ (by decide)
  exact h.1 rfl

/-- C2 (amended): under the "weighted" policy, if all dense candidate
scores are equal AND every sparse candidate position also occurs in the
dense list (so min-max over the union pads no dense entry with 0.0),
then the dense-normalized column is identically 0 and every fused score
equals (1 - alpha) times the sparse-normalized score — the ranking is
determined solely by the sparse term.  The subset condition is forced by
the counterexample: a sparse-only position pads the dense column with
0.0 and de-degenerates the normalization. -/
theorem c2_weighted_degenerate (d s : List (ℤ × ℚ)) (c alpha : ℚ)
    (hall : ∀ p ∈ d, p.2 = c)
    (hsub : ∀ i ∈ s.map Prod.fst, i ∈ d.map Prod.fst) :
    weightedDNorm d s = List.replicate (sortedUnion d s).length 0
    ∧ weightedFusedScores d s alpha
        = (weightedSNorm d s).map (fun x => (1 - alpha) * x) :=
  ⟨weightedDNorm_degenerate d s c hall hsub,
   weightedFused_degenerate d s c alpha hall hsub⟩

theorem c2_witness :
    weightedDNorm [((0 : ℤ), (1 : ℚ)), (1, 1), (2, 1)] [((1 : ℤ), (7 : ℚ))]
      = List.replicate
          (sortedUnion [((0 : ℤ), (1 : ℚ)), (1, 1), (2, 1)]
            [((1 : ℤ), (7 : ℚ))]).length 0 := by
  have h := c2_weighted_degenerate [((0 : ℤ), (1 : ℚ)), (1, 1), (2, 1)]
    [((1 : ℤ), (7 : ℚ))] 1 (3 / 5) (by decide) (by decide)
  exact h.1

/-- C2 counterexample: the dense candidate scores are all exactly 0.5
(`c2dense.map Prod.snd = [1/2, 1/2, 1/2]`), yet because the sparse list
contributes position 3 to the union, the dense column over the union is
[0.5, 0.5, 0.5, 0.0]: min-max does not degenerate and normalizes it to
[1, 1, 1, 0], not to zeros.  With the code's default alpha = 0.6 the
fused scores are [0.6, 0.6, 0.6, 0.4]: the dense-normalized contribution
is 0.6 ≠ 0 for positions 0, 1, 2, and the ranking puts them ahead of
position 3 even though the sparse term alone would rank 3 first. -/
theorem c2_counterexample :
    c2dense.map Prod.snd = [1 / 2, 1 / 2, 1 / 2]
    ∧ weightedDNorm c2dense c2sparse = [1, 1, 1, 0]
    ∧ weightedDNorm c2dense c2sparse ≠ List.replicate 4 0
    ∧ (weightedMethod c2dense c2sparse 4 (3 / 5)).map FusedResult.pos
        = [0, 1, 2, 3]
    ∧ (weightedMethod c2dense c2sparse 4 (3 / 5)).map FusedResult.score
        = [3 / 5, 3 / 5, 3 / 5, 2 / 5] := by
  have hu : sortedUnion c2dense c2sparse = [0, 1, 2, 3] := by decide
  have hd0 : (sortedUnion c2dense c2sparse).map (fun i => dictGet c2dense i 0)
      = [1 / 2, 1 / 2, 1 / 2, 0] := by
    rw [hu]
    norm_num [c2dense, dictGet, dictGet?]
  have hdn : weightedDNorm c2dense c2sparse = [1, 1, 1, 0] := by
    rw [weightedDNorm, hd0]
    norm_num [minmax, min_def, max_def]
  have hs0 : (sortedUnion c2dense c2sparse).map (fun i => dictGet c2sparse i 0)
      = [0, 0, 0, 1] := by
    rw [hu]
    norm_num [c2sparse, dictGet, dictGet?]
  have hsn : weightedSNorm c2dense c2sparse = [0, 0, 0, 1] := by
    rw [weightedSNorm, hs0]
    norm_num [minmax, min_def, max_def]
  have hf : weightedFusedScores c2dense c2sparse (3 / 5)
      = [3 / 5, 3 / 5, 3 / 5, 2 / 5] := by
    rw [weightedFusedScores, hdn, hsn]
    norm_num
  have hm : weightedMethod c2dense c2sparse 4 (3 / 5)
      = [⟨0, 3 / 5, "weighted"⟩, ⟨1, 3 / 5, "weighted"⟩,
         ⟨2, 3 / 5, "weighted"⟩, ⟨3, 2 / 5, "weighted"⟩] := by
    rw [weightedMethod, hu, hf]
    norm_num [List.insertionSort, List.orderedInsert, descBySnd]
  refine ⟨rfl, hdn, ?_, ?_, ?_⟩
  · rw [hdn]
    simp [List.replicate]
  · rw [hm]
    rfl
  · rw [hm]
    rfl

/-- C3 counterexample: positions 1 and 8 receive identical RRF scores
(1/(60+1) + 1/(60+2) each) on `c3dense`/`c3sparse`.  CPython iterates
the set union `{1, 8}` as 8 then 1 (`hash(i) = i` for small ints; in the
8-slot table, 8 hashes to slot 0 and 1 to slot 1, and iteration walks
slots in order), and the stable descending sort keeps that order for
equal keys, so `hybrid_search` returns position 8 before position 1 —
not the ascending-position order [1, 8] the claim prescribes for
ties. -/
theorem c3_counterexample :
    rrfScore (c3dense.map Prod.fst) (c3sparse.map Prod.fst) 60 1
      = rrfScore (c3dense.map Prod.fst) (c3sparse.map Prod.fst) 60 8
    ∧ (rrfMethod c3dense c3sparse 2 60 [8, 1]).map FusedResult.pos = [8, 1]
    ∧ (rrfMethod c3dense c3sparse 2 60 [8, 1]).map FusedResult.pos ≠ [1, 8] := by
  have hr1 : rankOf (c3dense.map Prod.fst) 1 = some 1 := by decide
  have hr2 : rankOf (c3dense.map Prod.fst) 8 = some 2 := by decide
  have hr3 : rankOf (c3sparse.map Prod.fst) 1 = some 2 := by decide
  have hr4 : rankOf (c3sparse.map Prod.fst) 8 = some 1 := by decide
  have hs1 : rrfScore (c3dense.map Prod.fst) (c3sparse.map Prod.fst) 60 1
      = 1 / 61 + 1 / 62 := by
    rw [rrfScore, hr1, hr3]
    norm_num
  have hs8 : rrfScore (c3dense.map Prod.fst) (c3sparse.map Prod.fst) 60 8
      = 1 / 62 + 1 / 61 := by
    rw [rrfScore, hr2, hr4]
    norm_num
  have htie : rrfScore (c3dense.map Prod.fst) (c3sparse.map Prod.fst) 60 1
      = rrfScore (c3dense.map Prod.fst) (c3sparse.map Prod.fst) 60 8 := by
    rw [hs1, hs8]
    ring
  have hpos : (rrfMethod c3dense c3sparse 2 60 [8, 1]).map FusedResult.pos
      = [8, 1] := by
    rw [rrfMethod]
    simp only [List.map_cons, List.map_nil, List.insertionSort,
      List.orderedInsert, descBySnd]
    rw [if_pos (le_of_eq htie)]
    rfl
  exact ⟨htie, hpos, by rw [hpos]; decide⟩

/-- C6: `_dense_scores_faiss` with fetch count 3 against a 2-record
corpus (distances [0, 1]) does not fail, but the label array it passes
on is [0, 1, -1]: FAISS pads the missing slot with the fabricated id -1,
which is not a corpus position in 0..N-1 — contradicting "returns
exactly the positions of all corpus records ... must not fabricate
entries". -/
theorem c6_faiss_pads_fabricated_ids :
    (denseScoresFaiss [0, 1] 3).1 = [0, 1, -1]
    ∧ ¬ (∀ i ∈ (denseScoresFaiss [0, 1] 3).1, 0 ≤ i ∧ i < 2)
    ∧ (denseScoresFaiss [0, 1] 3).1.length ≠ 2 := by
  decide

/-- C7: during materialization over a 3-record corpus, the out-of-bounds
fused position 5 does raise the loud IndexError, but the out-of-bounds
(negative) fused position -1 is silently resolved by Python's wrapping
list indexing to position 2 and materializes a copy of the LAST corpus
record — no error is raised, contradicting "for every fused position
that is out of corpus bounds (negative or >= N), the call fails with a
loud error". -/
theorem c7_negative_position_silently_wraps :
    pyGetIdx 3 (-1) = some 2
    ∧ pyGetIdx 3 5 = none
    ∧ materializeAll [0, 1, 2] [⟨-1, 0, "rrf"⟩] c7store
      = .ok (c7store ++ [[("chunk", Val.str "rec2"),
          ("retrieval", Val.str "rrf"), ("score", Val.num 0)]], [3])
    ∧ materializeAll [0, 1, 2] [⟨5, 0, "rrf"⟩] c7store
      = .error "IndexError: list index out of range" :=
  ⟨rfl, rfl, rfl, rfl⟩

/-- C9: materialization attaches `score` and `retrieval` to a copy of
each corpus record, never to the stored record: whenever
`materializeAll` succeeds, every address of the corpus mapping holds the
same record in the final heap as in the initial heap (all copies are
allocated at fresh addresses). -/
theorem c9_corpus_not_mutated (corpusAddrs : List ℕ) (fused : List FusedResult) :
    ∀ (st stF : List RecordV) (addrs : List ℕ),
    (∀ a ∈ corpusAddrs, a < st.length) →
    materializeAll corpusAddrs fused st = .ok (stF, addrs) →
    ∀ a ∈ corpusAddrs, stF[a]? = st[a]? := by
  induction fused with
  | nil =>
    intro st stF addrs _ hok a ha
    rw [materializeAll] at hok
    simp only [Except.ok.injEq, Prod.mk.injEq] at hok
    rw [← hok.1]
  | cons fr rest ih =>
    intro st stF addrs hb hok a ha
    rw [materializeAll] at hok
    cases hpg : pyGetIdx corpusAddrs.length fr.pos with
    | none =>
      rw [hpg] at hok
      exact absurd hok (by simp)
    | some j =>
      rw [hpg] at hok
      dsimp only at hok
      cases hrec : materializeAll corpusAddrs rest
          ((st ++ [st.getD (corpusAddrs.getD j 0) []]).set st.length
            (recSet (recSet (st.getD (corpusAddrs.getD j 0) []) "retrieval"
              (.str fr.tag)) "score" (.num fr.score))) with
      | error e =>
        rw [hrec] at hok
        exact absurd hok (by simp)
      | ok pr =>
        cases pr with
        | mk stF2 addrs2 =>
          rw [hrec] at hok
          simp only [Except.ok.injEq, Prod.mk.injEq] at hok
          have hlt : a < st.length := hb a ha
          have hb2 : ∀ b ∈ corpusAddrs,
              b < ((st ++ [st.getD (corpusAddrs.getD j 0) []]).set st.length
                (recSet (recSet (st.getD (corpusAddrs.getD j 0) []) "retrieval"
                  (.str fr.tag)) "score" (.num fr.score))).length := by
            intro b hbm
            have := hb b hbm
            rw [List.length_set, List.length_append]
            simp only [List.length_cons, List.length_nil]
            omega
          have hih := ih _ stF2 addrs2 hb2 hrec a ha
          rw [← hok.1, hih, List.getElem?_set_ne (ne_of_gt hlt),
            List.getElem?_append_left hlt]

theorem c9_witness :
    (c7store ++ [[("chunk", Val.str "rec0"), ("retrieval", Val.str "dense"),
        ("score", Val.num 0)]])[0]? = c7store[0]? := by
  have h := c9_corpus_not_mutated [0, 1, 2] [⟨0, 0, "dense"⟩] c7store
    (c7store ++ [[("chunk", Val.str "rec0"), ("retrieval", Val.str "dense"),
      ("score", Val.num 0)]]) [3] (by decide) rfl 0 (by decide)
  exact h
